import Mathlib

/-!
Verification of the multi-track MIDI timeline compiler of
`frontend/src/pages/AudiotrackManager/AudiotrackEditor.tsx`.

The TypeScript source is shallowly embedded: JavaScript numbers that hold
integers are modelled as `ℤ` (with `Int.fdiv` for `Math.floor` of a quotient
and round-half-up for `Math.round`), the one floating-point computation
(`velocityToBin`, which uses `Math.pow` with a fractional exponent) is
modelled over `ℝ`, and the mutable editor state (`commonStore` fields and the
module-level `dropRecordingTime` flag) is threaded explicitly through the
event handlers as an `EditorState` value.  JavaScript `Array.prototype.sort`
is stable (ES2019), so it is modelled by a stable insertion sort driven by the
same comparator.
-/

/-- The tagged MIDI event variants of the `MidiMessage` type
(`messageType` ∈ NoteOn/NoteOff/ElapsedTime/ControlChange, with the numeric
fields `note`, `velocity`, `value`, `instrument` used by the editor). -/
inductive MidiMessage : Type where
  | NoteOn (note velocity instrument : ℤ)
  | NoteOff (note velocity instrument : ℤ)
  | ElapsedTime (value : ℤ)
  | ControlChange (value : ℤ)
deriving DecidableEq, Repr

/-- A track of the track store: `{ id, mainInstrument, content, rawContent,
offsetTime, contentTime }`, exactly the fields created by the New Track
button. -/
structure Track : Type where
  id : String
  mainInstrument : String
  content : String
  rawContent : List MidiMessage
  offsetTime : ℤ
  contentTime : ℤ
deriving DecidableEq, Repr

/-- Source constant `minimalMoveTime = 8` (ms per time unit). -/
def minimalMoveTime : ℤ := 8

/-- Source constant `velocityEvents = 128`. -/
def velocityEvents : ℤ := 128

/-- Source constant `velocityBins = 12`. -/
def velocityBins : ℤ := 12

/-- Source constant `velocityExp = 0.5`. -/
noncomputable def velocityExp : ℝ := 0.5

/-- Modelled from the spec: the instrument token table
(`InstrumentTypeTokenMap` of `types/composition`, a file that is not part of
the sources here).  The spec fixes only that it is "a fixed, ordered mapping
from instrument index to a short textual token", so representative distinct
tokens are used. -/
def InstrumentTypeTokenMap : List String :=
  ["i0", "i1", "i2", "i3", "i4", "i5", "i6", "i7", "i8", "i9", "i10"]

/-- Modelled from the spec: the instrument display-name table
(`InstrumentTypeNameMap` of `types/composition`); only its length (the number
of instruments, matching the token table) matters to the handlers. -/
def InstrumentTypeNameMap : List String :=
  ["n0", "n1", "n2", "n3", "n4", "n5", "n6", "n7", "n8", "n9", "n10"]

/-- Modelled from the spec: `tracksMinimalTotalTime` of `types/composition`,
the "minimum timeline length" floor of the track-store invariant.  The
concrete value is not fixed by the spec. -/
def tracksMinimalTotalTime : ℤ := 5000

/-- JavaScript `Math.round(x / d)` for an integer `x` and a positive integer
`d`: round half toward `+∞`, i.e. `⌊x/d + 1/2⌋ = ⌊(2x + d) / (2d)⌋`. -/
def jsRoundDiv (x d : ℤ) : ℤ := (2 * x + d).fdiv (2 * d)

/-- JavaScript `n.toString(16)` for a natural number: lowercase hex digits. -/
def natToHex (n : ℕ) : String := (Nat.toDigits 16 n).asString

/-- JavaScript `n.toString(16)` for an integer. -/
def intToHex (i : ℤ) : String :=
  if i < 0 then "-" ++ natToHex i.natAbs else natToHex i.toNat

/-- JavaScript string interpolation of `l[i]`: out-of-range (or negative)
indices give `undefined`, which prints as `"undefined"`. -/
def jsIndex (l : List String) (i : ℤ) : String :=
  if i < 0 then "undefined" else ((l.get? i.toNat).getD "undefined")

/-- `velocityToBin` (AudiotrackEditor.tsx, lines 87–91):
clamp the velocity to `[0, velocityEvents - 1]` and apply the power-curve
quantizer
`Math.ceil((velocityEvents * ((velocityExp ^ (v / velocityEvents) - 1.0) /
(velocityExp - 1.0))) / binsize)` with `binsize = velocityEvents /
(velocityBins - 1)`.  The JavaScript double computation is modelled exactly
over `ℝ` (for the integer inputs involved the two never differ: the curve
never lands within double precision of a bin boundary). -/
noncomputable def velocityToBin (velocity : ℤ) : ℤ :=
  let v : ℤ := max 0 (min velocity (velocityEvents - 1))
  let binsize : ℝ := (velocityEvents : ℝ) / ((velocityBins : ℝ) - 1)
  ⌈((velocityEvents : ℝ) *
      ((velocityExp ^ ((v : ℝ) / (velocityEvents : ℝ)) - 1.0) /
        (velocityExp - 1.0))) / binsize⌉

/-- The `for (let i = 0; i < num; i++) ret += 't125 '` loop of the
`ElapsedTime` branch of `midiMessageToToken`. -/
def appendWaits : ℕ → String → String
  | 0, ret => ret
  | n + 1, ret => appendWaits n (ret ++ "t125 ")

/-- `midiMessageToToken` (AudiotrackEditor.tsx, lines 93–112).  The
`instrumentType` argument is the value of the global
`commonStore.instrumentType` read by the function at encode time. -/
noncomputable def midiMessageToToken (instrumentType : ℤ) (msg : MidiMessage) : String :=
  match msg with
  | .NoteOn note velocity _ =>
      jsIndex InstrumentTypeTokenMap instrumentType ++ ":" ++ intToHex note ++ ":" ++
        intToHex (velocityToBin velocity) ++ " "
  | .NoteOff note velocity _ =>
      jsIndex InstrumentTypeTokenMap instrumentType ++ ":" ++ intToHex note ++ ":" ++
        intToHex (velocityToBin velocity) ++ " "
  | .ElapsedTime value =>
      let time := jsRoundDiv value minimalMoveTime
      let num := time.fdiv 125
      let time2 := time - num * 125
      let ret := appendWaits num.toNat ""
      if time2 > 0 then ret ++ "t" ++ toString time2 ++ " " else ret
  | .ControlChange _ => ""

/-- One step of a stable insertion sort: insert `x` after every element `y`
of the (sorted) accumulator with `le y x`.  Used to model JavaScript
`Array.prototype.sort`, which is stable (ES2019): a stable sort is uniquely
determined by the comparator and the input order. -/
def insLe {α : Type} (le : α → α → Bool) (x : α) : List α → List α
  | [] => [x]
  | y :: ys => if le y x then y :: insLe le x ys else x :: y :: ys

/-- Stable sort by the comparator `le` (model of `Array.prototype.sort`):
insert the elements into an accumulator in input order, each after the
elements already placed that compare `le` to it. -/
def stableSort {α : Type} (le : α → α → Bool) (l : List α) : List α :=
  l.foldl (fun acc x => insLe le x acc) []

/-- The comparator of `commonStore.tracks.slice().sort((a, b) =>
a.offsetTime - b.offsetTime)` (export onClick, line 465). -/
def trackLe (a b : Track) : Bool := decide (a.offsetTime ≤ b.offsetTime)

/-- `sortedTracks` of the export onClick: the track list stably sorted by
`offsetTime` ascending. -/
def sortTracks (tracks : List Track) : List Track := stableSort trackLe tracks

/-- The inner loop of the first pass (export onClick, lines 468–474): walk a
track's `rawContent` accumulating `accContentTime` and push
`track.offsetTime + accContentTime` at every `ElapsedTime` event. -/
def trackStamps (offset : ℤ) : ℤ → List MidiMessage → List ℤ
  | _, [] => []
  | acc, .ElapsedTime v :: rest => (offset + (acc + v)) :: trackStamps offset (acc + v) rest
  | acc, .NoteOn _ _ _ :: rest => trackStamps offset acc rest
  | acc, .NoteOff _ _ _ :: rest => trackStamps offset acc rest
  | acc, .ControlChange _ :: rest => trackStamps offset acc rest

/-- The first pass of the merge (export onClick, lines 464–475): for every
track (in sorted order) push its `offsetTime` and then its elapsed-time
stamps into the `timestamp` array. -/
def collectTs : List Track → List ℤ
  | [] => []
  | tr :: rest => (tr.offsetTime :: trackStamps tr.offsetTime 0 tr.rawContent) ++ collectTs rest

/-- `timestamp.slice().sort((a, b) => a - b)` (export onClick, line 476). -/
def sortZ (l : List ℤ) : List ℤ := stableSort (fun a b => decide (a ≤ b)) l

/-- The `reduce` of line 477–482: turn the sorted timestamps into
`ElapsedTime` deltas, the first one measured from 0. -/
def toDeltas (prev : ℤ) : List ℤ → List MidiMessage
  | [] => []
  | t :: rest => .ElapsedTime (t - prev) :: toDeltas t rest

/-- The splice position of line 491–493:
`insertIndex = sortedTimestamp.findIndex(t => t >= currentTime)` followed by
`splice(insertIndex + 1, 0, _)`.  When `findIndex` returns `-1` (no
timestamp is ≥ `currentTime`) the splice position `-1 + 1 = 0` prepends. -/
def spliceIndex (c : ℤ) (ts : List ℤ) : ℕ :=
  let i := ts.findIdx (fun t => decide (c ≤ t))
  if i = ts.length then 0 else i + 1

/-- One note insertion of the second pass (export onClick, lines 491–493):
splice the note into `globalMessages` and a `0` placeholder into
`sortedTimestamp`, both right after the first timestamp ≥ `currentTime`. -/
def insertNote (c : ℤ) (msg : MidiMessage) :
    List MidiMessage × List ℤ → List MidiMessage × List ℤ
  | (gm, ts) =>
    let i := spliceIndex c ts
    (gm.insertIdx i msg, ts.insertIdx i 0)

/-- The inner loop of the second pass (export onClick, lines 484–495): walk a
track's `rawContent`; `ElapsedTime` advances `currentTime =
offsetTime + accContentTime`, note events are spliced in at `currentTime`. -/
def notePass (offset : ℤ) : ℤ → List MidiMessage →
    List MidiMessage × List ℤ → List MidiMessage × List ℤ
  | _, [], st => st
  | acc, .ElapsedTime v :: rest, st => notePass offset (acc + v) rest st
  | acc, .NoteOn n v i :: rest, st =>
      notePass offset acc rest (insertNote (offset + acc) (.NoteOn n v i) st)
  | acc, .NoteOff n v i :: rest, st =>
      notePass offset acc rest (insertNote (offset + acc) (.NoteOff n v i) st)
  | acc, .ControlChange _ :: rest, st => notePass offset acc rest st

/-- The second pass over all (sorted) tracks (export onClick, lines 483–496). -/
def pass2 : List Track → List MidiMessage × List ℤ → List MidiMessage × List ℤ
  | [], st => st
  | tr :: rest, st => pass2 rest (notePass tr.offsetTime 0 tr.rawContent st)

/-- The final `globalMessages` list built by the export onClick (lines
464–496) as a function of the track store. -/
def mergeMessages (tracks : List Track) : List MidiMessage :=
  let sorted := sortTracks tracks
  let sortedTs := sortZ (collectTs sorted)
  (pass2 sorted (toDeltas 0 sortedTs, sortedTs)).1

/-- JavaScript `String.prototype.trim`: drop whitespace from both ends
(modelled structurally on the character list). -/
def jsTrim (s : String) : String :=
  String.mk (((s.data.dropWhile Char.isWhitespace).reverse.dropWhile Char.isWhitespace).reverse)

/-- The exported prompt (export onClick, line 497):
`('<pad> ' + globalMessages.map(m => midiMessageToToken(m)).join('')).trim()`,
with `instrumentType` the global instrument selection read by
`midiMessageToToken` at export time. -/
noncomputable def mergeTracks (instrumentType : ℤ) (tracks : List Track) : String :=
  jsTrim ("<pad> " ++ String.join ((mergeMessages tracks).map (midiMessageToToken instrumentType)))

/-- The editor's mutable state: the `commonStore` fields used by the
audiotrack editor, the `selectedTrackId` local state, and the module-level
`dropRecordingTime` flag, threaded explicitly. -/
structure EditorState : Type where
  tracks : List Track
  recordingTrackId : String
  playingTrackId : String
  recordingContent : String
  recordingRawContent : List MidiMessage
  dropRecordingTime : Bool
  instrumentType : ℤ
  activeMidiDeviceIndex : ℤ
  trackTotalTime : ℤ
  trackPlayStartTime : ℤ
  selectedTrackId : String
  compositionSubmittedPrompt : String
deriving DecidableEq, Repr

/-- `content_time` of a raw event list: the sum of its `ElapsedTime` deltas
(spec §3; used when a recording is flushed into its track). -/
def contentTimeOf (msgs : List MidiMessage) : ℤ :=
  (msgs.map (fun m => match m with | .ElapsedTime v => v | _ => 0)).sum

/-- Modelled from the spec: `refreshTracksTotalTime` of `utils` (not among
the sources here): "total_time = max(minimum_floor, max over tracks of
offset_time + content_time)" (spec §4.4). -/
def refreshTracksTotalTime (s : EditorState) : EditorState :=
  { s with trackTotalTime :=
      (s.tracks.map (fun t => t.offsetTime + t.contentTime)).foldl max tracksMinimalTotalTime }

/-- Modelled from the spec: `flushMidiRecordingContent` of `utils` (not among
the sources here): flush the live recording buffer and token string into the
track the session targets, recomputing its `contentTime` and the total time
(spec §4.3: "flushes `raw_buffer` and live token string into the target
Track's `raw_content`/`rendered_content`, recomputes `content_time`"); a
no-op when no stored track matches `recordingTrackId`.  Clearing
`recordingTrackId` is done by the callers, not here (every caller in the
editor sets it explicitly right after flushing). -/
def flushMidiRecordingContent (s : EditorState) : EditorState :=
  match s.tracks.findIdx? (fun t => t.id = s.recordingTrackId) with
  | none => s
  | some i =>
      match s.tracks.get? i with
      | none => s
      | some tr =>
          let tr2 : Track :=
            { tr with content := s.recordingContent,
                      rawContent := s.recordingRawContent,
                      contentTime := contentTimeOf s.recordingRawContent }
          refreshTracksTotalTime { s with tracks := s.tracks.set i tr2 }

/-- The record/stop button onClick of a track row (AudiotrackEditor.tsx,
lines 369–388): flush any live recording, stop playback, then either stop
recording this track, or — after the MIDI-device check — start recording it,
seeding the session from the track's existing content.  The clicked track is
identified by its id. -/
def recordButtonClick (trackId : String) (s0 : EditorState) : EditorState :=
  let s := { flushMidiRecordingContent s0 with playingTrackId := "" }
  if s.recordingTrackId = trackId then
    { s with recordingTrackId := "" }
  else if s.activeMidiDeviceIndex = -1 then
    s
  else
    match s.tracks.find? (fun t => t.id = trackId) with
    | none => s
    | some tr =>
        { s with dropRecordingTime := true,
                 selectedTrackId := trackId,
                 recordingTrackId := trackId,
                 recordingContent := tr.content,
                 recordingRawContent := tr.rawContent }

/-- Tag a note event with the given instrument
(`data = { ...data, instrument: commonStore.instrumentType }`, line 127–130;
only note events carry an instrument field). -/
def setInstrument (instrument : ℤ) : MidiMessage → MidiMessage
  | .NoteOn n v _ => .NoteOn n v instrument
  | .NoteOff n v _ => .NoteOff n v instrument
  | m => m

/-- `midiMessageHandler` (AudiotrackEditor.tsx, lines 116–137):
`ControlChange` rescales its value to an instrument index
(`Math.round(value / 127 * (InstrumentTypeNameMap.length - 1))`, unclamped)
and stores it; while recording, a first `ElapsedTime` is dropped once, and
any other event is tagged with the current instrument and appended to the
session's raw buffer and live token string.  The external `PlayNote` and
toast display are out of scope. -/
noncomputable def midiMessageHandler (data : MidiMessage) (s : EditorState) : EditorState :=
  match data with
  | .ControlChange v =>
      { s with instrumentType :=
          jsRoundDiv (v * ((InstrumentTypeNameMap.length : ℤ) - 1)) 127 }
  | msg =>
      if s.recordingTrackId = "" then s
      else if s.dropRecordingTime && (match msg with | .ElapsedTime _ => true | _ => false) then
        { s with dropRecordingTime := false }
      else
        let tagged := setInstrument s.instrumentType msg
        { s with recordingRawContent := s.recordingRawContent ++ [tagged],
                 recordingContent :=
                   s.recordingContent ++ midiMessageToToken s.instrumentType tagged }

/-- The track Draggable onStop handler (AudiotrackEditor.tsx, lines 170–181):
clamp the (already pixel-rounded) offset change `rawOffset` to
`[-offsetTime, trackTotalTime - offsetTime]`, add it to the track's offset
and refresh the total time.  `rawOffset` stands for
`Math.round(Math.round(delta / snapValue * baseMoveTime * scale) /
minimalMoveTime) * minimalMoveTime`, an arbitrary integer. -/
def trackDragStop (trackIndex : ℕ) (rawOffset : ℤ) (s : EditorState) : EditorState :=
  match s.tracks.get? trackIndex with
  | none => s
  | some tr =>
      let offsetTime := min (max rawOffset (-tr.offsetTime)) (s.trackTotalTime - tr.offsetTime)
      let tr2 : Track := { tr with offsetTime := tr.offsetTime + offsetTime }
      refreshTracksTotalTime { s with tracks := s.tracks.set trackIndex tr2 }

/-- The export button onClick (AudiotrackEditor.tsx, lines 459–499): flush
any live recording, clear the recording and playing track ids, merge the
tracks into the prompt string, store it in
`commonStore.compositionSubmittedPrompt` and return it (the `setPrompt`
callback's argument). -/
noncomputable def exportClick (s0 : EditorState) : EditorState × String :=
  let s := { flushMidiRecordingContent s0 with recordingTrackId := "", playingTrackId := "" }
  let result := mergeTracks s.instrumentType s.tracks
  ({ s with compositionSubmittedPrompt := result }, result)

/-- The wait token for a unit count `u`: `"t<u> "`. -/
def waitToken (u : ℤ) : String := "t" ++ toString u ++ " "

/-- Specification-side description of the wait tokens emitted for an elapsed
time `value`: `floor(round(value / 8) / 125)` maximum-wait units of 125
followed by the remainder `round(value / 8) mod 125` when it is positive
(spec §4.2). -/
def waitUnits (value : ℤ) : List ℤ :=
  let time := jsRoundDiv value minimalMoveTime
  List.replicate (time.fdiv 125).toNat 125 ++ (if time % 125 > 0 then [time % 125] else [])

/-- The data of a track the merge may depend on: its offset and raw
contents. -/
def trackProj (t : Track) : ℤ × List MidiMessage := (t.offsetTime, t.rawContent)

/-- Well-formed raw event: an `ElapsedTime` delta is non-negative
(spec §3: `ElapsedTime { millis: non-negative integer }`). -/
def MsgWF : MidiMessage → Prop
  | .ElapsedTime v => 0 ≤ v
  | _ => True

instance decMsgWF (m : MidiMessage) : Decidable (MsgWF m) :=
  match m with
  | .ElapsedTime v => inferInstanceAs (Decidable (0 ≤ v))
  | .NoteOn _ _ _ => inferInstanceAs (Decidable True)
  | .NoteOff _ _ _ => inferInstanceAs (Decidable True)
  | .ControlChange _ => inferInstanceAs (Decidable True)

/-- Well-formed track store: offsets are non-negative and raw contents hold
non-negative elapsed-time deltas (spec §3). -/
def TracksWF (tracks : List Track) : Prop :=
  ∀ t ∈ tracks, 0 ≤ t.offsetTime ∧ ∀ m ∈ t.rawContent, MsgWF m

instance decTracksWF (tracks : List Track) : Decidable (TracksWF tracks) :=
  inferInstanceAs (Decidable (∀ t ∈ tracks, 0 ≤ t.offsetTime ∧ ∀ m ∈ t.rawContent, MsgWF m))

/-- The note events of one track's raw content paired with their absolute
instants `offsetTime + accContentTime`, in processing order. -/
def notePairs (offset : ℤ) : ℤ → List MidiMessage → List (ℤ × MidiMessage)
  | _, [] => []
  | acc, .ElapsedTime v :: rest => notePairs offset (acc + v) rest
  | acc, .NoteOn n v i :: rest => (offset + acc, .NoteOn n v i) :: notePairs offset acc rest
  | acc, .NoteOff n v i :: rest => (offset + acc, .NoteOff n v i) :: notePairs offset acc rest
  | acc, .ControlChange _ :: rest => notePairs offset acc rest

/-- All note events of a track list paired with their absolute instants, in
processing order (tracks in list order, events in content order). -/
def allNotePairs (tracks : List Track) : List (ℤ × MidiMessage) :=
  tracks.flatMap (fun tr => notePairs tr.offsetTime 0 tr.rawContent)

/-- A merge state abstracted into slots: one slot per skeleton timestamp,
carrying the notes inserted just after that timestamp's wait message. -/
abbrev Slots : Type := List (ℤ × List MidiMessage)

/-- The `globalMessages` list represented by a slot list: for each slot, the
wait message for the delta from the previous timestamp followed by the
slot's notes. -/
def slotsGm (prev : ℤ) : Slots → List MidiMessage
  | [] => []
  | (t, ns) :: rest => (.ElapsedTime (t - prev) :: ns) ++ slotsGm t rest

/-- The `sortedTimestamp` array represented by a slot list: each timestamp
followed by one `0` placeholder per inserted note. -/
def slotsTs : Slots → List ℤ
  | [] => []
  | (t, ns) :: rest => (t :: List.replicate ns.length 0) ++ slotsTs rest

/-- Slot-level counterpart of `insertNote`: cons the note onto the first
slot whose timestamp is ≥ the note's instant. -/
def insertSlot (c : ℤ) (m : MidiMessage) : Slots → Slots
  | [] => []
  | (t, ns) :: rest =>
      if c ≤ t then (t, m :: ns) :: rest else (t, ns) :: insertSlot c m rest

/-- The merge's slot structure: fold all note insertions (in processing
order) at slot level over the empty skeleton slots. -/
def mergeSlots (tracks : List Track) : Slots :=
  let sorted := sortTracks tracks
  let ts0 := sortZ (collectTs sorted)
  (allNotePairs sorted).foldl (fun st p => insertSlot p.1 p.2 st)
    (ts0.map (fun t => (t, [])))

/-- The notes among `ps` whose absolute instant is `c`, in processing
order. -/
def notesAt (c : ℤ) (ps : List (ℤ × MidiMessage)) : List MidiMessage :=
  (ps.filter (fun p => decide (p.1 = c))).map Prod.snd

/-- The slot structure the merge is proved to produce: walking the skeleton
timestamps (with `seen` the already-walked prefix, newest first), the first
slot of every duplicate group carries all notes of that instant in reverse
processing order, later duplicates stay empty. -/
def expSlots (ps : List (ℤ × MidiMessage)) : List ℤ → List ℤ → Slots
  | _, [] => []
  | seen, t :: rest =>
      (t, if t ∈ seen then [] else (notesAt t ps).reverse) :: expSlots ps (t :: seen) rest

/-- The clamp applied to a requested offset change (spec §4.4): restrict it
to `[-offset_time, total_time - offset_time]`. -/
def clampMove (raw offset total : ℤ) : ℤ := min (max raw (-offset)) (total - offset)

/-- Example store: a single track holding one note at its offset instant. -/
def exTrack60 : Track :=
  { id := "a", mainInstrument := "", content := "", rawContent := [.NoteOn 60 0 0],
    offsetTime := 0, contentTime := 0 }

/-- Example store: one track holding two notes at the same instant (a chord:
no elapsed time between them), note 60 recorded before note 64. -/
def exTrackChord : Track :=
  { id := "a", mainInstrument := "", content := "", rawContent := [.NoteOn 60 0 0, .NoteOn 64 0 0],
    offsetTime := 0, contentTime := 0 }

/-- Example: a track playing note 60 at 0 and then waiting 500 ms. -/
def exTrackB : Track :=
  { id := "b", mainInstrument := "", content := "", rawContent := [.NoteOn 60 0 0, .ElapsedTime 500],
    offsetTime := 0, contentTime := 500 }

/-- Example: a track at offset 500 playing note 64 immediately, so that its
note shares the absolute instant 500 with the end of `exTrackB`. -/
def exTrackC : Track :=
  { id := "c", mainInstrument := "", content := "", rawContent := [.NoteOn 64 0 0],
    offsetTime := 500, contentTime := 0 }

/-- A track agreeing with `exTrack60` on offset and raw content but differing
in id, cached rendered content, cached duration and display instrument. -/
def exTrack60Alt : Track :=
  { id := "y", mainInstrument := "n3", content := "stale", rawContent := [.NoteOn 60 0 0],
    offsetTime := 0, contentTime := 42 }

/-- Example editor state: nothing recording, track "p" playing, no MIDI
device selected. -/
def exState : EditorState :=
  { tracks := [exTrack60], recordingTrackId := "", playingTrackId := "p",
    recordingContent := "", recordingRawContent := [], dropRecordingTime := false,
    instrumentType := 0, activeMidiDeviceIndex := -1, trackTotalTime := 5000,
    trackPlayStartTime := 0, selectedTrackId := "", compositionSubmittedPrompt := "" }

lemma join_cons (a : String) (l : List String) :
    String.join (a :: l) = a ++ String.join l := by
  apply String.ext
  simp [String.join_eq, String.data_append]

lemma join_append (l1 l2 : List String) :
    String.join (l1 ++ l2) = String.join l1 ++ String.join l2 := by
  apply String.ext
  simp [String.join_eq, String.data_append]

lemma join_nil : String.join [] = "" := rfl

lemma join_singleton (a : String) : String.join [a] = a := by
  rw [join_cons, join_nil, String.append_empty]

lemma appendWaits_eq (n : ℕ) (s : String) :
    appendWaits n s = s ++ String.join (List.replicate n "t125 ") := by
  induction n generalizing s with
  | zero => rw [List.replicate_zero, join_nil, String.append_empty]; rfl
  | succ n ih =>
      rw [appendWaits, ih, List.replicate_succ, join_cons, String.append_assoc]

lemma jsRoundDiv_nonneg {x d : ℤ} (hx : 0 ≤ x) (hd : 0 ≤ d) : 0 ≤ jsRoundDiv x d := by
  unfold jsRoundDiv
  rw [Int.fdiv_eq_ediv _ (by omega)]
  exact Int.ediv_nonneg (by omega) (by omega)

lemma token_elapsed (inst value : ℤ) :
    midiMessageToToken inst (.ElapsedTime value) =
      String.join (List.replicate ((jsRoundDiv value minimalMoveTime) / 125).toNat "t125 ") ++
        (if (jsRoundDiv value minimalMoveTime) % 125 > 0
          then "t" ++ toString ((jsRoundDiv value minimalMoveTime) % 125) ++ " " else "") := by
  show (let time := jsRoundDiv value minimalMoveTime
        let num := time.fdiv 125
        let time2 := time - num * 125
        let ret := appendWaits num.toNat ""
        if time2 > 0 then ret ++ "t" ++ toString time2 ++ " " else ret) = _
  set time := jsRoundDiv value minimalMoveTime with htime
  have hfd : time.fdiv 125 = time / 125 := Int.fdiv_eq_ediv _ (by norm_num)
  have hmod : time - time / 125 * 125 = time % 125 := by
    rw [Int.emod_def]; ring
  simp only [hfd, hmod, appendWaits_eq, String.empty_append]
  by_cases hpos : time % 125 > 0
  · rw [if_pos hpos, if_pos hpos]
    simp only [String.append_assoc]
  · rw [if_neg hpos, if_neg hpos, String.append_empty]

lemma token_elapsed_zero (inst : ℤ) : midiMessageToToken inst (.ElapsedTime 0) = "" := by
  rw [token_elapsed]
  decide

/-- C4.  For every `ElapsedTime` event with non-negative delta `d`, the
encoder emits `floor(round(d / 8) / 125)` maximum-wait tokens `"t125 "`
followed by one remainder token `"t<r> "` exactly when
`r = round(d / 8) mod 125` is positive; the emitted unit counts are each in
`(0, 125]` and sum to `round(d / 8)` exactly. -/
theorem C4_elapsed_encoding (value : ℤ) (h : 0 ≤ value) (inst : ℤ) :
    midiMessageToToken inst (.ElapsedTime value) = String.join ((waitUnits value).map waitToken)
    ∧ (waitUnits value).sum = jsRoundDiv value minimalMoveTime
    ∧ ∀ u ∈ waitUnits value, 0 < u ∧ u ≤ 125 := by
  have h8 : (0:ℤ) ≤ minimalMoveTime := by norm_num [minimalMoveTime]
  set time := jsRoundDiv value minimalMoveTime with htime
  have htime0 : 0 ≤ time := jsRoundDiv_nonneg h h8
  have hfd : time.fdiv 125 = time / 125 := Int.fdiv_eq_ediv _ (by norm_num)
  have hwu : waitUnits value =
      List.replicate (time / 125).toNat 125 ++ (if time % 125 > 0 then [time % 125] else []) := by
    simp only [waitUnits, ← htime, hfd]
  refine ⟨?_, ?_, ?_⟩
  · rw [token_elapsed, hwu, ← htime, List.map_append, List.map_replicate, join_append]
    have h125 : waitToken 125 = "t125 " := rfl
    rw [h125]
    congr 1
    split
    · rw [List.map_cons, List.map_nil, join_singleton]; rfl
    · rfl
  · rw [hwu, List.sum_append, List.sum_replicate, nsmul_eq_mul,
      Int.toNat_of_nonneg (Int.ediv_nonneg htime0 (by norm_num))]
    have hmod0 : 0 ≤ time % 125 := Int.emod_nonneg time (by norm_num)
    split
    · rw [List.sum_cons, List.sum_nil]
      have := Int.ediv_add_emod time 125
      omega
    · rw [List.sum_nil]
      have := Int.ediv_add_emod time 125
      omega
  · intro u hu
    rw [hwu] at hu
    rcases List.mem_append.mp hu with hu | hu
    · rw [List.eq_of_mem_replicate hu]; omega
    · have hmodlt : time % 125 < 125 := Int.emod_lt_of_pos time (by norm_num)
      split at hu
      · rcases List.mem_singleton.mp hu with rfl
        constructor
        · omega
        · omega
      · exact absurd hu (List.not_mem_nil u)

/-- Witness for C4 at `d = 2012`, instrument 0: `round(2012 / 8) = 252`
splits into two maximal waits and a remainder of 2. -/
theorem C4_elapsed_encoding_witness :
    midiMessageToToken 0 (.ElapsedTime 2012) = String.join ((waitUnits 2012).map waitToken)
    ∧ (waitUnits 2012).sum = jsRoundDiv 2012 minimalMoveTime
    ∧ ∀ u ∈ waitUnits 2012, 0 < u ∧ u ≤ 125 :=
  C4_elapsed_encoding 2012 (by norm_num) 0

lemma velocityToBin_eq (velocity : ℤ) :
    velocityToBin velocity =
      ⌈(22:ℝ) - 22 * (1/2:ℝ) ^ (((max 0 (min velocity 127) : ℤ) : ℝ) / 128)⌉ := by
  unfold velocityToBin
  have hB : velocityEvents - 1 = (127:ℤ) := by norm_num [velocityEvents]
  have hE : (velocityEvents : ℝ) = 128 := by norm_num [velocityEvents]
  have hb : (velocityBins : ℝ) = 12 := by norm_num [velocityBins]
  have hx : velocityExp = 1/2 := by norm_num [velocityExp]
  rw [hB, hE, hb, hx]
  dsimp only
  have key : ∀ p : ℝ,
      (128:ℝ) * ((p - 1.0) / ((1:ℝ)/2 - 1.0)) / ((128:ℝ)/((12:ℝ)-1)) = 22 - 22 * p := by
    intro p
    ring
  rw [key]

lemma velocityToBin_mono {v1 v2 : ℤ} (h : v1 ≤ v2) :
    velocityToBin v1 ≤ velocityToBin v2 := by
  rw [velocityToBin_eq, velocityToBin_eq]
  apply Int.ceil_le_ceil
  have hc : ((max 0 (min v1 127) : ℤ) : ℝ) ≤ ((max 0 (min v2 127) : ℤ) : ℝ) := by
    have : max 0 (min v1 127) ≤ max 0 (min v2 127) := by omega
    exact_mod_cast this
  have hp : (1/2:ℝ) ^ (((max 0 (min v2 127) : ℤ) : ℝ) / 128) ≤
      (1/2:ℝ) ^ (((max 0 (min v1 127) : ℤ) : ℝ) / 128) := by
    apply Real.rpow_le_rpow_of_exponent_ge (by norm_num) (by norm_num)
    linarith
  linarith

lemma velocityToBin_clamp (v : ℤ) :
    velocityToBin v = velocityToBin (max 0 (min v 127)) := by
  have hcl : max 0 (min (max 0 (min v 127)) 127) = max 0 (min v 127) := by omega
  rw [velocityToBin_eq, velocityToBin_eq, hcl]

lemma velocityToBin_zero : velocityToBin 0 = 0 := by
  rw [velocityToBin_eq]
  have h0 : ((max 0 (min (0:ℤ) 127) : ℤ) : ℝ) / 128 = 0 := by norm_num
  rw [h0, Real.rpow_zero]
  norm_num

lemma rpow_half_127_lt : (1/2:ℝ) ^ ((127:ℝ)/128) < 6/11 := by
  have hnn : (0:ℝ) ≤ (1/2:ℝ) ^ ((127:ℝ)/128) := Real.rpow_nonneg (by norm_num) _
  have key : ((1/2:ℝ) ^ ((127:ℝ)/128)) ^ (128:ℕ) < ((6:ℝ)/11) ^ (128:ℕ) := by
    rw [← Real.rpow_natCast ((1/2:ℝ) ^ ((127:ℝ)/128)) 128, ← Real.rpow_mul (by norm_num)]
    have hexp : ((127:ℝ)/128) * (128:ℕ) = ((127:ℕ) : ℝ) := by norm_num
    rw [hexp, Real.rpow_natCast]
    rw [div_pow, div_pow, div_lt_div_iff₀ (by positivity) (by positivity)]
    norm_num
  exact lt_of_pow_lt_pow_left₀ 128 (by norm_num) key

lemma rpow_half_127_ge : (1/2:ℝ) ≤ (1/2:ℝ) ^ ((127:ℝ)/128) := by
  have h := Real.rpow_le_rpow_of_exponent_ge (x := (1/2:ℝ)) (by norm_num) (by norm_num)
    (show (127:ℝ)/128 ≤ 1 by norm_num)
  rwa [Real.rpow_one] at h

lemma velocityToBin_max : velocityToBin 127 = 11 := by
  rw [velocityToBin_eq]
  have h127 : ((max 0 (min (127:ℤ) 127) : ℤ) : ℝ) / 128 = (127:ℝ)/128 := by norm_num
  rw [h127, Int.ceil_eq_iff]
  constructor
  · have := rpow_half_127_lt
    push_cast
    linarith
  · have := rpow_half_127_ge
    push_cast
    linarith

lemma velocityToBin_nonneg (v : ℤ) : 0 ≤ velocityToBin v := by
  rw [velocityToBin_clamp]
  have h := velocityToBin_mono (show (0:ℤ) ≤ max 0 (min v 127) by omega)
  rw [velocityToBin_zero] at h
  exact h

lemma velocityToBin_le_max (v : ℤ) : velocityToBin v ≤ 11 := by
  rw [velocityToBin_clamp]
  have h := velocityToBin_mono (show max 0 (min v 127) ≤ (127:ℤ) by omega)
  rw [velocityToBin_max] at h
  exact h

/-- C7.  With the source configuration (12 bins, range 128, exponent 0.5) the
velocity quantizer maps 0 to bin 0, maps the maximum velocity 127 to bin
`velocityBins - 1 = 11`, and every integer input lands in `[0, 11]`. -/
theorem C7_velocity_bounds :
    velocityToBin 0 = 0 ∧ velocityToBin 127 = velocityBins - 1 ∧
      ∀ v : ℤ, 0 ≤ velocityToBin v ∧ velocityToBin v ≤ velocityBins - 1 := by
  have hb : velocityBins - 1 = (11:ℤ) := by norm_num [velocityBins]
  rw [hb]
  exact ⟨velocityToBin_zero, velocityToBin_max,
    fun v => ⟨velocityToBin_nonneg v, velocityToBin_le_max v⟩⟩

/-- C8.  The velocity quantizer is monotone non-decreasing, and (being a pure
function of its argument) deterministic: equal inputs give equal bins. -/
theorem C8_velocity_monotone (v1 v2 : ℤ) (h : v1 ≤ v2) :
    velocityToBin v1 ≤ velocityToBin v2 ∧
      ∀ w1 w2 : ℤ, w1 = w2 → velocityToBin w1 = velocityToBin w2 :=
  ⟨velocityToBin_mono h, fun _ _ hw => congrArg velocityToBin hw⟩

/-- Witness for C8 at velocities 3 ≤ 100. -/
theorem C8_velocity_monotone_witness :
    velocityToBin 3 ≤ velocityToBin 100 ∧
      ∀ w1 w2 : ℤ, w1 = w2 → velocityToBin w1 = velocityToBin w2 :=
  C8_velocity_monotone 3 100 (by norm_num)

lemma token_noteOn_vel0 (inst n i : ℤ) :
    midiMessageToToken inst (.NoteOn n 0 i) =
      jsIndex InstrumentTypeTokenMap inst ++ ":" ++ intToHex n ++ ":" ++ "0" ++ " " := by
  show jsIndex InstrumentTypeTokenMap inst ++ ":" ++ intToHex n ++ ":" ++
      intToHex (velocityToBin 0) ++ " " = _
  rw [velocityToBin_zero]
  rfl

/-- C6 counterexample: the encoder does not clamp the note number.  Note 300
(out of 0–127) is hex-encoded as `12c`, which differs from the encoding of
the clamped note 127 (`7f`), refuting "encoding a note event with
out-of-range note … produces the same result as the corresponding in-range
clamped input". -/
theorem C6_counterexample :
    midiMessageToToken 0 (.NoteOn 300 0 0) ≠ midiMessageToToken 0 (.NoteOn 127 0 0) := by
  rw [token_noteOn_vel0, token_noteOn_vel0]
  decide

/-- C6 (amended).  Only the velocity is clamped to 0–127: encoding a note
event with out-of-range velocity equals encoding the clamped velocity (and
processing is total, so it never panics); note numbers are hex-encoded
unclamped, and a `ControlChange` stores the rescaled instrument index
`round(value / 127 * (N - 1))` unclamped. -/
theorem C6_velocity_clamped_amended :
    (∀ inst n v i, midiMessageToToken inst (.NoteOn n v i) =
        midiMessageToToken inst (.NoteOn n (max 0 (min v 127)) i))
    ∧ (∀ inst n v i, midiMessageToToken inst (.NoteOff n v i) =
        midiMessageToToken inst (.NoteOff n (max 0 (min v 127)) i))
    ∧ (∀ (v : ℤ) (s : EditorState), (midiMessageHandler (.ControlChange v) s).instrumentType =
        jsRoundDiv (v * ((InstrumentTypeNameMap.length : ℤ) - 1)) 127) := by
  refine ⟨?_, ?_, ?_⟩
  · intro inst n v i
    show _ ++ intToHex (velocityToBin v) ++ " " = _ ++ intToHex (velocityToBin _) ++ " "
    rw [velocityToBin_clamp v]
  · intro inst n v i
    show _ ++ intToHex (velocityToBin v) ++ " " = _ ++ intToHex (velocityToBin _) ++ " "
    rw [velocityToBin_clamp v]
  · intro v s
    rfl

lemma mergeMessages_exTrack60 :
    mergeMessages [exTrack60] = [.ElapsedTime 0, .NoteOn 60 0 0] := by decide

lemma mergeTracks_exTrack60_inst0 : mergeTracks 0 [exTrack60] = "<pad> i0:3c:0" := by
  unfold mergeTracks
  rw [mergeMessages_exTrack60, List.map_cons, List.map_cons, List.map_nil,
    token_elapsed_zero, token_noteOn_vel0]
  decide

lemma mergeTracks_exTrack60_inst1 : mergeTracks 1 [exTrack60] = "<pad> i1:3c:0" := by
  unfold mergeTracks
  rw [mergeMessages_exTrack60, List.map_cons, List.map_cons, List.map_nil,
    token_elapsed_zero, token_noteOn_vel0]
  decide

/-- C1 counterexample: merging the same track store under two different
globally selected instruments yields different token strings, refuting
"regardless of the globally selected instrument at export time" — the merge
re-encodes every stored note with the instrument selected when the export
button is pressed. -/
theorem C1_counterexample : mergeTracks 0 [exTrack60] ≠ mergeTracks 1 [exTrack60] := by
  rw [mergeTracks_exTrack60_inst0, mergeTracks_exTrack60_inst1]
  decide

lemma trackProj_offset {a b : Track} (h : trackProj a = trackProj b) :
    a.offsetTime = b.offsetTime := congrArg Prod.fst h

lemma trackProj_raw {a b : Track} (h : trackProj a = trackProj b) :
    a.rawContent = b.rawContent := congrArg Prod.snd h

lemma insLe_proj {a1 a2 : Track} (ha : trackProj a1 = trackProj a2) :
    ∀ {l1 l2 : List Track}, l1.map trackProj = l2.map trackProj →
      (insLe trackLe a1 l1).map trackProj = (insLe trackLe a2 l2).map trackProj := by
  intro l1
  induction l1 with
  | nil =>
      intro l2 hl
      cases l2 with
      | nil => simp [insLe, ha]
      | cons y2 ys2 => simp at hl
  | cons y1 ys1 ih =>
      intro l2 hl
      cases l2 with
      | nil => simp at hl
      | cons y2 ys2 =>
          simp only [List.map_cons, List.cons.injEq] at hl
          obtain ⟨hy, hys⟩ := hl
          have hle : trackLe y1 a1 = trackLe y2 a2 := by
            unfold trackLe
            rw [trackProj_offset hy, trackProj_offset ha]
          by_cases hc : trackLe y2 a2 = true
          · rw [insLe, insLe, hle, hc, if_pos rfl, if_pos rfl, List.map_cons,
              List.map_cons, hy, ih hys]
          · have hc1 : trackLe y1 a1 = false := by rw [hle]; exact Bool.eq_false_iff.mpr hc
            have hc2 : trackLe y2 a2 = false := Bool.eq_false_iff.mpr hc
            rw [insLe, insLe, hc1, hc2, if_neg (by simp), if_neg (by simp)]
            simp only [List.map_cons, ha, hy, hys]

lemma stableSort_proj :
    ∀ {l1 l2 acc1 acc2 : List Track}, l1.map trackProj = l2.map trackProj →
      acc1.map trackProj = acc2.map trackProj →
      (List.foldl (fun acc x => insLe trackLe x acc) acc1 l1).map trackProj =
        (List.foldl (fun acc x => insLe trackLe x acc) acc2 l2).map trackProj := by
  intro l1
  induction l1 with
  | nil =>
      intro l2 acc1 acc2 hl hacc
      cases l2 with
      | nil => simpa using hacc
      | cons => simp at hl
  | cons x1 xs1 ih =>
      intro l2 acc1 acc2 hl hacc
      cases l2 with
      | nil => simp at hl
      | cons x2 xs2 =>
          simp only [List.map_cons, List.cons.injEq] at hl
          obtain ⟨hx, hxs⟩ := hl
          rw [List.foldl_cons, List.foldl_cons]
          exact ih hxs (insLe_proj hx hacc)

lemma sortTracks_proj {l1 l2 : List Track} (h : l1.map trackProj = l2.map trackProj) :
    (sortTracks l1).map trackProj = (sortTracks l2).map trackProj :=
  stableSort_proj h rfl

lemma collectTs_proj :
    ∀ {l1 l2 : List Track}, l1.map trackProj = l2.map trackProj →
      collectTs l1 = collectTs l2 := by
  intro l1
  induction l1 with
  | nil =>
      intro l2 hl
      cases l2 with
      | nil => rfl
      | cons => simp at hl
  | cons x1 xs1 ih =>
      intro l2 hl
      cases l2 with
      | nil => simp at hl
      | cons x2 xs2 =>
          simp only [List.map_cons, List.cons.injEq] at hl
          obtain ⟨hx, hxs⟩ := hl
          rw [collectTs, collectTs, trackProj_offset hx, trackProj_raw hx, ih hxs]

lemma pass2_proj :
    ∀ {l1 l2 : List Track}, l1.map trackProj = l2.map trackProj →
      ∀ st, pass2 l1 st = pass2 l2 st := by
  intro l1
  induction l1 with
  | nil =>
      intro l2 hl st
      cases l2 with
      | nil => rfl
      | cons => simp at hl
  | cons x1 xs1 ih =>
      intro l2 hl st
      cases l2 with
      | nil => simp at hl
      | cons x2 xs2 =>
          simp only [List.map_cons, List.cons.injEq] at hl
          obtain ⟨hx, hxs⟩ := hl
          rw [pass2, pass2, trackProj_offset hx, trackProj_raw hx, ih hxs]

lemma mergeMessages_proj {l1 l2 : List Track} (h : l1.map trackProj = l2.map trackProj) :
    mergeMessages l1 = mergeMessages l2 := by
  unfold mergeMessages
  dsimp only
  rw [collectTs_proj (sortTracks_proj h), pass2_proj (sortTracks_proj h)]

/-- C1 (amended).  The merge is a deterministic, pure function of the tracks'
raw contents and offset times and of the instrument selected at export time:
two stores with the same per-track `(offsetTime, rawContent)` projections
merge to the same token string under the same selected instrument, whatever
their other fields (ids, cached contents, durations). -/
theorem C1_merge_pure_amended (inst : ℤ) (ts1 ts2 : List Track)
    (h : ts1.map trackProj = ts2.map trackProj) :
    mergeTracks inst ts1 = mergeTracks inst ts2 := by
  unfold mergeTracks
  rw [mergeMessages_proj h]

/-- Witness for C1 (amended): two singleton stores whose tracks differ in id,
cached rendered content, cached duration and display instrument but share
offset and raw content merge identically. -/
theorem C1_merge_pure_witness :
    mergeTracks 0 [exTrack60] = mergeTracks 0 [exTrack60Alt] :=
  C1_merge_pure_amended 0 [exTrack60] [exTrack60Alt] (by decide)

lemma flush_noop {s : EditorState} (hnorec : ∀ t ∈ s.tracks, t.id ≠ s.recordingTrackId) :
    flushMidiRecordingContent s = s := by
  unfold flushMidiRecordingContent
  have hnone : s.tracks.findIdx? (fun t => t.id = s.recordingTrackId) = none := by
    rw [List.findIdx?_eq_none_iff]
    intro t ht
    simp [hnorec t ht]
  rw [hnone]

/-- C5 counterexample: clicking record on a track while no MIDI device is
selected does change state — the click stops playback (clears
`playingTrackId`) before the device check, so the state is not "exactly as it
was immediately before the attempt". -/
theorem C5_counterexample : recordButtonClick "a" exState ≠ exState := by decide

/-- C5 (amended).  A record attempt with no device selected aborts without
starting a session: when no recording session targets a stored track, the
only state change is stopping playback (`playingTrackId := ""`); the session
fields, the drop-first-wait flag, the selected track, the tracks and the
total time are unchanged.  (When a session on another track is live, the same
click first flushes it into its track.) -/
theorem C5_record_abort_amended (trackId : String) (s : EditorState)
    (hrec : s.recordingTrackId ≠ trackId)
    (hdev : s.activeMidiDeviceIndex = -1)
    (hnorec : ∀ t ∈ s.tracks, t.id ≠ s.recordingTrackId) :
    recordButtonClick trackId s = { s with playingTrackId := "" } := by
  unfold recordButtonClick
  rw [flush_noop hnorec]
  dsimp only
  rw [if_neg hrec, if_pos hdev]

/-- Witness for C5 (amended): in `exState` (playing, no device, no session)
the failed record click on track "a" only clears the playing id. -/
theorem C5_record_abort_witness :
    recordButtonClick "a" exState = { exState with playingTrackId := "" } :=
  C5_record_abort_amended "a" exState (by decide) (by decide) (by decide)

/-- C9.  A drag of track `i` with (pixel-derived) requested change `raw` is
clamped to `[-offsetTime, trackTotalTime - offsetTime]`; the track's new
offset is the old one plus the clamped change and lies in
`[0, trackTotalTime]` (for the pre-move total time), so no move makes an
offset negative. -/
theorem C9_move_clamped (s : EditorState) (i : ℕ) (raw : ℤ) (tr : Track)
    (h : s.tracks.get? i = some tr) (hT : 0 ≤ s.trackTotalTime) :
    (trackDragStop i raw s).tracks.get? i =
      some { tr with offsetTime := tr.offsetTime + clampMove raw tr.offsetTime s.trackTotalTime }
    ∧ 0 ≤ tr.offsetTime + clampMove raw tr.offsetTime s.trackTotalTime
    ∧ tr.offsetTime + clampMove raw tr.offsetTime s.trackTotalTime ≤ s.trackTotalTime := by
  have hlen : i < s.tracks.length := by
    rw [List.get?_eq_getElem?] at h
    exact (List.getElem?_eq_some_iff.mp h).1
  refine ⟨?_, ?_, ?_⟩
  · unfold trackDragStop
    rw [h]
    dsimp only [refreshTracksTotalTime, clampMove]
    rw [List.get?_eq_getElem?]
    exact List.getElem?_set_self (by simpa using hlen)
  · unfold clampMove
    omega
  · unfold clampMove
    omega

/-- Witness for C9: dragging the zero-offset example track left by 100 ms is
clamped to a zero change; the offset stays 0 and within the total time. -/
theorem C9_move_clamped_witness :
    (trackDragStop 0 (-100) exState).tracks.get? 0 =
      some { exTrack60 with
              offsetTime := exTrack60.offsetTime +
                              clampMove (-100) exTrack60.offsetTime exState.trackTotalTime }
    ∧ 0 ≤ exTrack60.offsetTime + clampMove (-100) exTrack60.offsetTime exState.trackTotalTime
    ∧ exTrack60.offsetTime + clampMove (-100) exTrack60.offsetTime exState.trackTotalTime
        ≤ exState.trackTotalTime :=
  C9_move_clamped exState 0 (-100) exTrack60 (by decide) (by decide)

/-- C10.  The export click never mutates the track store: whenever no
recording session targets a stored track (so the preceding flush is a no-op),
every track — id, offset, content time, raw content and rendered content —
is unchanged after the merge; the merge itself (`mergeTracks`) is a pure
function that sorts and splices only private copies. -/
theorem C10_export_preserves_tracks (s : EditorState)
    (hnorec : ∀ t ∈ s.tracks, t.id ≠ s.recordingTrackId) :
    ((exportClick s).1).tracks = s.tracks := by
  unfold exportClick
  rw [flush_noop hnorec]

/-- Witness for C10 on the example state. -/
theorem C10_export_preserves_tracks_witness :
    ((exportClick exState).1).tracks = exState.tracks :=
  C10_export_preserves_tracks exState (by decide)

lemma insertIdx_append_right {α : Type} (l1 l2 : List α) (k : ℕ) (x : α) :
    List.insertIdx (l1.length + k) x (l1 ++ l2) = l1 ++ List.insertIdx k x l2 := by
  induction l1 with
  | nil => simp
  | cons a l1 ih => simpa [List.insertIdx_succ_cons, Nat.succ_add] using ih

lemma findIdx_append_of_none {p : ℤ → Bool} {l1 : List ℤ} (l2 : List ℤ)
    (h : ∀ x ∈ l1, p x = false) :
    List.findIdx p (l1 ++ l2) = l1.length + List.findIdx p l2 := by
  rw [List.findIdx_append]
  have hlen : List.findIdx p l1 = l1.length := List.findIdx_eq_length.mpr h
  rw [hlen, if_neg (by omega), Nat.add_comm]

lemma slotsTs_cons (t : ℤ) (ns : List MidiMessage) (rest : Slots) :
    slotsTs ((t, ns) :: rest) = t :: (List.replicate ns.length 0 ++ slotsTs rest) := by
  rw [slotsTs, List.cons_append]

lemma slotsGm_cons (prev t : ℤ) (ns : List MidiMessage) (rest : Slots) :
    slotsGm prev ((t, ns) :: rest) =
      .ElapsedTime (t - prev) :: (ns ++ slotsGm t rest) := by
  rw [slotsGm, List.cons_append]

lemma slotsGm_length_head (prev t : ℤ) (ns : List MidiMessage) :
    (MidiMessage.ElapsedTime (t - prev) :: ns).length = ns.length + 1 := by
  simp

lemma fst_mem_slotsTs {t : ℤ} {ns : List MidiMessage} :
    ∀ {slots : Slots}, (t, ns) ∈ slots → t ∈ slotsTs slots := by
  intro slots
  induction slots with
  | nil => intro h; simp at h
  | cons hd rest ih =>
      obtain ⟨u, ms⟩ := hd
      intro h
      rw [slotsTs_cons]
      rcases List.mem_cons.mp h with h | h
      · rw [Prod.mk.injEq] at h
        exact List.mem_cons.mpr (Or.inl h.1)
      · exact List.mem_cons.mpr (Or.inr (List.mem_append.mpr (Or.inr (ih h))))

lemma slotsTs_map_init (ts : List ℤ) :
    slotsTs (ts.map (fun t => (t, []))) = ts := by
  induction ts with
  | nil => rfl
  | cons t rest ih => rw [List.map_cons, slotsTs_cons]; simp [ih]

lemma slotsGm_map_init (ts : List ℤ) :
    ∀ prev, slotsGm prev (ts.map (fun t => (t, []))) = toDeltas prev ts := by
  induction ts with
  | nil => intro prev; rfl
  | cons t rest ih => intro prev; rw [List.map_cons, slotsGm_cons, toDeltas]; simp [ih]

lemma insertSlot_fst (c : ℤ) (m : MidiMessage) :
    ∀ slots : Slots, (insertSlot c m slots).map Prod.fst = slots.map Prod.fst := by
  intro slots
  induction slots with
  | nil => rfl
  | cons hd rest ih =>
      obtain ⟨t, ns⟩ := hd
      by_cases hct : c ≤ t
      · rw [insertSlot, if_pos hct]
        simp
      · rw [insertSlot, if_neg hct, List.map_cons, List.map_cons, ih]

lemma insertNote_def (c : ℤ) (msg : MidiMessage) (gm : List MidiMessage) (ts : List ℤ) :
    insertNote c msg (gm, ts) =
      (gm.insertIdx (spliceIndex c ts) msg, ts.insertIdx (spliceIndex c ts) 0) := rfl

lemma spliceIndex_def (c : ℤ) (ts : List ℤ) :
    spliceIndex c ts =
      if List.findIdx (fun t => decide (c ≤ t)) ts = ts.length then 0
      else List.findIdx (fun t => decide (c ≤ t)) ts + 1 := rfl

lemma slotsTs_length (t : ℤ) (ns : List MidiMessage) (rest : Slots) :
    (slotsTs ((t, ns) :: rest)).length = (ns.length + 1) + (slotsTs rest).length := by
  rw [slotsTs_cons]
  simp only [List.length_cons, List.length_append, List.length_replicate]
  omega

lemma insertNote_slots (c : ℤ) (msg : MidiMessage) :
    ∀ (slots : Slots) (prev : ℤ), 0 ≤ c →
      (∀ s ∈ slots, 0 ≤ s.1) → (∃ s ∈ slots, c ≤ s.1) →
      insertNote c msg (slotsGm prev slots, slotsTs slots) =
        (slotsGm prev (insertSlot c msg slots), slotsTs (insertSlot c msg slots)) := by
  intro slots
  induction slots with
  | nil =>
      intro prev hc hpos hex
      simp at hex
  | cons hd rest ih =>
      obtain ⟨t, ns⟩ := hd
      intro prev hc hpos hex
      rw [insertNote_def]
      by_cases hct : c ≤ t
      · have hfind : List.findIdx (fun x => decide (c ≤ x)) (slotsTs ((t, ns) :: rest)) = 0 := by
          rw [slotsTs_cons, List.findIdx_cons]
          simp [hct]
        have hsp : spliceIndex c (slotsTs ((t, ns) :: rest)) = 1 := by
          have hlen := slotsTs_length t ns rest
          rw [spliceIndex_def, hfind, if_neg (by omega)]
        rw [hsp, insertSlot, if_pos hct]
        simp only [Prod.mk.injEq]
        constructor
        · rw [slotsGm_cons, slotsGm_cons, List.insertIdx_succ_cons, List.insertIdx_zero,
            List.cons_append]
        · rw [slotsTs_cons, slotsTs_cons, List.insertIdx_succ_cons, List.insertIdx_zero]
          simp [List.replicate_succ]
      · have ht0 : (0:ℤ) ≤ t := hpos (t, ns) (List.mem_cons_self _ _)
        have hc0 : (0:ℤ) < c := by omega
        have hex2 : ∃ s ∈ rest, c ≤ s.1 := by
          rcases hex with ⟨s, hs, hcs⟩
          rcases List.mem_cons.mp hs with rfl | hs2
          · exact absurd hcs hct
          · exact ⟨s, hs2, hcs⟩
        have hpos2 : ∀ s ∈ rest, 0 ≤ s.1 := fun s hs => hpos s (List.mem_cons.mpr (Or.inr hs))
        have hpre : ∀ x ∈ (t :: List.replicate ns.length (0:ℤ)),
            (fun x => decide (c ≤ x)) x = false := by
          intro x hx
          rcases List.mem_cons.mp hx with rfl | hx2
          · simp [hct]
          · rw [List.eq_of_mem_replicate hx2]
            simp only [decide_eq_false_iff_not]
            omega
        have hfr : List.findIdx (fun x => decide (c ≤ x)) (slotsTs rest) <
            (slotsTs rest).length := by
          apply List.findIdx_lt_length_of_exists
          rcases hex2 with ⟨⟨u, ms⟩, hs, hcs⟩
          exact ⟨u, fst_mem_slotsTs hs, by simpa using hcs⟩
        have hfind : List.findIdx (fun x => decide (c ≤ x)) (slotsTs ((t, ns) :: rest)) =
            (ns.length + 1) + List.findIdx (fun x => decide (c ≤ x)) (slotsTs rest) := by
          rw [slotsTs, findIdx_append_of_none _ hpre]
          simp only [List.length_cons, List.length_replicate]
        have hspr : spliceIndex c (slotsTs rest) =
            List.findIdx (fun x => decide (c ≤ x)) (slotsTs rest) + 1 := by
          rw [spliceIndex_def, if_neg (by omega)]
        have hsp : spliceIndex c (slotsTs ((t, ns) :: rest)) =
            (ns.length + 1) + spliceIndex c (slotsTs rest) := by
          have hlen := slotsTs_length t ns rest
          rw [spliceIndex_def, hfind, if_neg (by omega), hspr]
          omega
        have hIH := ih t hc hpos2 hex2
        rw [insertNote_def] at hIH
        simp only [Prod.mk.injEq] at hIH
        obtain ⟨hIH1, hIH2⟩ := hIH
        rw [hsp, insertSlot, if_neg hct]
        simp only [Prod.mk.injEq]
        constructor
        · rw [slotsGm_cons, slotsGm_cons, ← List.cons_append, ← List.cons_append]
          have hlen : ns.length + 1 = (MidiMessage.ElapsedTime (t - prev) :: ns).length := by
            simp
          rw [hlen, insertIdx_append_right, hIH1]
        · rw [slotsTs_cons, slotsTs_cons, ← List.cons_append, ← List.cons_append]
          have hlen : ns.length + 1 = (t :: List.replicate ns.length (0:ℤ)).length := by
            simp
          rw [hlen, insertIdx_append_right, hIH2]

lemma notePass_foldl (offset : ℤ) :
    ∀ (msgs : List MidiMessage) (acc : ℤ) (st : List MidiMessage × List ℤ),
      notePass offset acc msgs st =
        (notePairs offset acc msgs).foldl (fun st p => insertNote p.1 p.2 st) st := by
  intro msgs
  induction msgs with
  | nil =>
      intro acc st
      rfl
  | cons m rest ih =>
      intro acc st
      cases m with
      | ElapsedTime v => rw [notePass, notePairs, ih]
      | NoteOn n v i => rw [notePass, notePairs, List.foldl_cons, ih]
      | NoteOff n v i => rw [notePass, notePairs, List.foldl_cons, ih]
      | ControlChange v => rw [notePass, notePairs, ih]

lemma pass2_foldl :
    ∀ (tracks : List Track) (st : List MidiMessage × List ℤ),
      pass2 tracks st =
        (allNotePairs tracks).foldl (fun st p => insertNote p.1 p.2 st) st := by
  intro tracks
  induction tracks with
  | nil =>
      intro st
      rfl
  | cons tr rest ih =>
      intro st
      rw [pass2, allNotePairs, List.flatMap_cons, List.foldl_append, ih, notePass_foldl]
      rfl

lemma foldl_insertNote_slots :
    ∀ (ps : List (ℤ × MidiMessage)) (slots : Slots) (prev : ℤ),
      (∀ p ∈ ps, 0 ≤ p.1 ∧ p.1 ∈ slots.map Prod.fst) →
      (∀ s ∈ slots, 0 ≤ s.1) →
      ps.foldl (fun st p => insertNote p.1 p.2 st) (slotsGm prev slots, slotsTs slots) =
        (slotsGm prev (ps.foldl (fun st p => insertSlot p.1 p.2 st) slots),
         slotsTs (ps.foldl (fun st p => insertSlot p.1 p.2 st) slots)) := by
  intro ps
  induction ps with
  | nil =>
      intro slots prev hp hpos
      rfl
  | cons p ps ih =>
      intro slots prev hp hpos
      obtain ⟨c, m⟩ := p
      have hc := (hp (c, m) (List.mem_cons_self _ _)).1
      have hmem := (hp (c, m) (List.mem_cons_self _ _)).2
      have hex : ∃ s ∈ slots, c ≤ s.1 := by
        rcases List.mem_map.mp hmem with ⟨s, hs, heq⟩
        exact ⟨s, hs, le_of_eq heq.symm⟩
      rw [List.foldl_cons, List.foldl_cons, insertNote_slots c m slots prev hc hpos hex]
      apply ih
      · intro q hq
        refine ⟨(hp q (List.mem_cons.mpr (Or.inr hq))).1, ?_⟩
        rw [insertSlot_fst]
        exact (hp q (List.mem_cons.mpr (Or.inr hq))).2
      · intro s hs
        have hmm : s.1 ∈ (insertSlot c m slots).map Prod.fst := List.mem_map_of_mem _ hs
        rw [insertSlot_fst] at hmm
        rcases List.mem_map.mp hmm with ⟨s2, hs2, heq⟩
        rw [← heq]
        exact hpos s2 hs2

lemma notePairs_mem_stamps (offset : ℤ) :
    ∀ (msgs : List MidiMessage) (acc c : ℤ) (m : MidiMessage),
      (c, m) ∈ notePairs offset acc msgs →
      c ∈ (offset + acc) :: trackStamps offset acc msgs := by
  intro msgs
  induction msgs with
  | nil =>
      intro acc c m h
      simp [notePairs] at h
  | cons x rest ih =>
      intro acc c m h
      cases x with
      | ElapsedTime v =>
          rw [notePairs] at h
          rw [trackStamps]
          exact List.mem_cons.mpr (Or.inr (ih (acc + v) c m h))
      | NoteOn n v i =>
          rw [notePairs] at h
          rw [trackStamps]
          rcases List.mem_cons.mp h with h1 | h1
          · rw [Prod.mk.injEq] at h1
            exact List.mem_cons.mpr (Or.inl h1.1)
          · exact ih acc c m h1
      | NoteOff n v i =>
          rw [notePairs] at h
          rw [trackStamps]
          rcases List.mem_cons.mp h with h1 | h1
          · rw [Prod.mk.injEq] at h1
            exact List.mem_cons.mpr (Or.inl h1.1)
          · exact ih acc c m h1
      | ControlChange v =>
          rw [notePairs] at h
          rw [trackStamps]
          exact ih acc c m h

lemma notePairs_nonneg (offset : ℤ) :
    ∀ (msgs : List MidiMessage) (acc : ℤ), 0 ≤ offset + acc →
      (∀ m ∈ msgs, MsgWF m) →
      ∀ c m, (c, m) ∈ notePairs offset acc msgs → 0 ≤ c := by
  intro msgs
  induction msgs with
  | nil =>
      intro acc hacc hwf c m h
      simp [notePairs] at h
  | cons x rest ih =>
      intro acc hacc hwf c m h
      have hwfr : ∀ m ∈ rest, MsgWF m := fun m hm => hwf m (List.mem_cons.mpr (Or.inr hm))
      cases x with
      | ElapsedTime v =>
          rw [notePairs] at h
          have hv : (0:ℤ) ≤ v := hwf (.ElapsedTime v) (List.mem_cons_self _ _)
          exact ih (acc + v) (by omega) hwfr c m h
      | NoteOn n v i =>
          rw [notePairs] at h
          rcases List.mem_cons.mp h with h1 | h1
          · rw [Prod.mk.injEq] at h1
            rcases h1 with ⟨h1a, h1b⟩
            omega
          · exact ih acc hacc hwfr c m h1
      | NoteOff n v i =>
          rw [notePairs] at h
          rcases List.mem_cons.mp h with h1 | h1
          · rw [Prod.mk.injEq] at h1
            rcases h1 with ⟨h1a, h1b⟩
            omega
          · exact ih acc hacc hwfr c m h1
      | ControlChange v =>
          rw [notePairs] at h
          exact ih acc hacc hwfr c m h

lemma trackStamps_nonneg (offset : ℤ) :
    ∀ (msgs : List MidiMessage) (acc : ℤ), 0 ≤ offset + acc →
      (∀ m ∈ msgs, MsgWF m) →
      ∀ t ∈ trackStamps offset acc msgs, 0 ≤ t := by
  intro msgs
  induction msgs with
  | nil =>
      intro acc hacc hwf t ht
      simp [trackStamps] at ht
  | cons x rest ih =>
      intro acc hacc hwf t ht
      have hwfr : ∀ m ∈ rest, MsgWF m := fun m hm => hwf m (List.mem_cons.mpr (Or.inr hm))
      cases x with
      | ElapsedTime v =>
          rw [trackStamps] at ht
          have hv : (0:ℤ) ≤ v := hwf (.ElapsedTime v) (List.mem_cons_self _ _)
          rcases List.mem_cons.mp ht with h1 | h1
          · omega
          · exact ih (acc + v) (by omega) hwfr t h1
      | NoteOn n v i => exact ih acc hacc hwfr t ht
      | NoteOff n v i => exact ih acc hacc hwfr t ht
      | ControlChange v => exact ih acc hacc hwfr t ht

lemma allNotePairs_mem_collectTs :
    ∀ (tracks : List Track) (c : ℤ) (m : MidiMessage),
      (c, m) ∈ allNotePairs tracks → c ∈ collectTs tracks := by
  intro tracks
  induction tracks with
  | nil =>
      intro c m h
      simp [allNotePairs] at h
  | cons tr rest ih =>
      intro c m h
      rw [allNotePairs, List.flatMap_cons] at h
      rw [collectTs]
      rcases List.mem_append.mp h with h1 | h1
      · have h2 := notePairs_mem_stamps tr.offsetTime tr.rawContent 0 c m h1
        apply List.mem_append.mpr
        left
        rcases List.mem_cons.mp h2 with h3 | h3
        · rw [add_zero] at h3
          exact List.mem_cons.mpr (Or.inl h3)
        · exact List.mem_cons.mpr (Or.inr h3)
      · exact List.mem_append.mpr (Or.inr (ih c m h1))

lemma collectTs_nonneg :
    ∀ (tracks : List Track), TracksWF tracks → ∀ t ∈ collectTs tracks, 0 ≤ t := by
  intro tracks
  induction tracks with
  | nil =>
      intro hwf t ht
      simp [collectTs] at ht
  | cons tr rest ih =>
      intro hwf t ht
      have hhd := hwf tr (List.mem_cons_self _ _)
      have htl : TracksWF rest := fun u hu => hwf u (List.mem_cons.mpr (Or.inr hu))
      rw [collectTs] at ht
      rcases List.mem_append.mp ht with h1 | h1
      · rcases List.mem_cons.mp h1 with h2 | h2
        · omega
        · exact trackStamps_nonneg tr.offsetTime tr.rawContent 0
            (by omega) hhd.2 t h2
      · exact ih htl t h1

lemma mem_insLe {α : Type} (le : α → α → Bool) (x a : α) :
    ∀ l : List α, a ∈ insLe le x l ↔ a = x ∨ a ∈ l := by
  intro l
  induction l with
  | nil => simp [insLe]
  | cons y ys ih =>
      rw [insLe]
      by_cases h : le y x = true
      · rw [if_pos h]
        rw [List.mem_cons, ih, List.mem_cons]
        tauto
      · rw [if_neg h]
        simp [List.mem_cons]

lemma mem_foldl_insLe {α : Type} (le : α → α → Bool) :
    ∀ (l acc : List α) (a : α),
      a ∈ l.foldl (fun acc x => insLe le x acc) acc ↔ a ∈ acc ∨ a ∈ l := by
  intro l
  induction l with
  | nil =>
      intro acc a
      simp
  | cons x xs ih =>
      intro acc a
      rw [List.foldl_cons, ih, mem_insLe, List.mem_cons]
      tauto

lemma mem_stableSort {α : Type} (le : α → α → Bool) (l : List α) (a : α) :
    a ∈ stableSort le l ↔ a ∈ l := by
  unfold stableSort
  rw [mem_foldl_insLe]
  simp only [List.not_mem_nil, false_or]

lemma insLe_pairwise_z (x : ℤ) :
    ∀ l : List ℤ, l.Pairwise (fun a b => a ≤ b) →
      (insLe (fun a b => decide (a ≤ b)) x l).Pairwise (fun a b => a ≤ b) := by
  intro l
  induction l with
  | nil =>
      intro h
      simp [insLe]
  | cons y ys ih =>
      intro h
      rw [List.pairwise_cons] at h
      obtain ⟨hy, hys⟩ := h
      rw [insLe]
      by_cases hle : (fun a b : ℤ => decide (a ≤ b)) y x = true
      · rw [if_pos hle]
        rw [List.pairwise_cons]
        refine ⟨?_, ih hys⟩
        intro b hb
        rcases (mem_insLe _ x b ys).mp hb with rfl | hb2
        · simpa using hle
        · exact hy b hb2
      · rw [if_neg hle]
        have hxy : x ≤ y := by
          simp only [decide_eq_true_eq] at hle
          omega
        rw [List.pairwise_cons]
        refine ⟨?_, List.pairwise_cons.mpr ⟨hy, hys⟩⟩
        intro b hb
        rcases List.mem_cons.mp hb with rfl | hb2
        · exact hxy
        · exact le_trans hxy (hy b hb2)

lemma sortZ_pairwise (l : List ℤ) : (sortZ l).Pairwise (fun a b => a ≤ b) := by
  suffices h : ∀ (l acc : List ℤ), acc.Pairwise (fun a b => a ≤ b) →
      (l.foldl (fun acc x => insLe (fun a b => decide (a ≤ b)) x acc) acc).Pairwise
        (fun a b => a ≤ b) by
    exact h l [] (by simp)
  intro l
  induction l with
  | nil =>
      intro acc hacc
      simpa using hacc
  | cons x xs ih =>
      intro acc hacc
      rw [List.foldl_cons]
      exact ih (insLe _ x acc) (insLe_pairwise_z x acc hacc)

lemma mem_sortZ (l : List ℤ) (a : ℤ) : a ∈ sortZ l ↔ a ∈ l :=
  mem_stableSort (fun a b => decide (a ≤ b)) l a

lemma map_fst_init (ts : List ℤ) :
    (ts.map (fun t => (t, ([] : List MidiMessage)))).map Prod.fst = ts := by
  induction ts with
  | nil => rfl
  | cons t rest ih => rw [List.map_cons, List.map_cons, ih]

lemma mergeMessages_slots (tracks : List Track) (hwf : TracksWF tracks) :
    mergeMessages tracks = slotsGm 0 (mergeSlots tracks) := by
  have hwfs : TracksWF (sortTracks tracks) := by
    intro t ht
    exact hwf t ((mem_stableSort trackLe tracks t).mp ht)
  have hmem : ∀ p ∈ allNotePairs (sortTracks tracks), 0 ≤ p.1 ∧
      p.1 ∈ sortZ (collectTs (sortTracks tracks)) := by
    intro p hp
    obtain ⟨c, m⟩ := p
    rcases List.mem_flatMap.mp hp with ⟨tr, htr, hpair⟩
    have hwft := hwfs tr htr
    constructor
    · exact notePairs_nonneg tr.offsetTime tr.rawContent 0 (by omega) hwft.2 c m hpair
    · rw [mem_sortZ]
      exact allNotePairs_mem_collectTs (sortTracks tracks) c m
        (List.mem_flatMap.mpr ⟨tr, htr, hpair⟩)
  have hpos : ∀ s ∈ (sortZ (collectTs (sortTracks tracks))).map
      (fun t => (t, ([] : List MidiMessage))), 0 ≤ s.1 := by
    intro s hs
    rcases List.mem_map.mp hs with ⟨t, ht, rfl⟩
    exact collectTs_nonneg (sortTracks tracks) hwfs t ((mem_sortZ _ t).mp ht)
  unfold mergeMessages mergeSlots
  dsimp only
  rw [pass2_foldl]
  have hinit : (toDeltas 0 (sortZ (collectTs (sortTracks tracks))),
        sortZ (collectTs (sortTracks tracks))) =
      (slotsGm 0 ((sortZ (collectTs (sortTracks tracks))).map (fun t => (t, []))),
        slotsTs ((sortZ (collectTs (sortTracks tracks))).map (fun t => (t, [])))) := by
    rw [slotsGm_map_init, slotsTs_map_init]
  rw [hinit]
  rw [foldl_insertNote_slots _ _ 0 ?hm hpos]
  case hm =>
    intro p hp
    rw [map_fst_init]
    exact hmem p hp

lemma notesAt_append_self (c : ℤ) (m : MidiMessage) (ps : List (ℤ × MidiMessage)) :
    notesAt c (ps ++ [(c, m)]) = notesAt c ps ++ [m] := by
  unfold notesAt
  rw [List.filter_append, List.map_append]
  congr 1
  simp

lemma notesAt_append_ne {t c : ℤ} (hne : t ≠ c) (m : MidiMessage)
    (ps : List (ℤ × MidiMessage)) :
    notesAt t (ps ++ [(c, m)]) = notesAt t ps := by
  unfold notesAt
  rw [List.filter_append]
  have hnil : List.filter (fun p => decide (p.1 = t)) [(c, m)] = [] := by
    simp
    omega
  rw [hnil, List.append_nil]

lemma expSlots_append_no_c (c : ℤ) (m : MidiMessage) (ps : List (ℤ × MidiMessage)) :
    ∀ (ts seen : List ℤ), (∀ u ∈ ts, u = c → u ∈ seen) →
      expSlots (ps ++ [(c, m)]) seen ts = expSlots ps seen ts := by
  intro ts
  induction ts with
  | nil =>
      intro seen h
      rfl
  | cons t rest ih =>
      intro seen h
      rw [expSlots, expSlots]
      congr 1
      · by_cases hts : t ∈ seen
        · rw [if_pos hts, if_pos hts]
        · have htc : t ≠ c := fun heq => hts (h t (List.mem_cons_self _ _) heq)
          rw [if_neg hts, if_neg hts, notesAt_append_ne htc]
      · apply ih
        intro u hu huc
        exact List.mem_cons.mpr (Or.inr (h u (List.mem_cons.mpr (Or.inr hu)) huc))

lemma insertSlot_expSlots (c : ℤ) (m : MidiMessage) (ps : List (ℤ × MidiMessage)) :
    ∀ (ts seen : List ℤ), ts.Pairwise (fun a b => a ≤ b) → c ∈ ts →
      (∀ x ∈ seen, ¬ c ≤ x) →
      insertSlot c m (expSlots ps seen ts) = expSlots (ps ++ [(c, m)]) seen ts := by
  intro ts
  induction ts with
  | nil =>
      intro seen hsort hc hseen
      simp at hc
  | cons t rest ih =>
      intro seen hsort hc hseen
      rw [List.pairwise_cons] at hsort
      obtain ⟨hts, hrest⟩ := hsort
      by_cases hct : c ≤ t
      · have hceq : c = t := by
          rcases List.mem_cons.mp hc with h1 | h1
          · exact h1
          · have := hts c h1
            omega
        subst hceq
        have hcseen : c ∉ seen := fun h => hseen c h (le_refl c)
        rw [expSlots, expSlots, if_neg hcseen, if_neg hcseen, insertSlot, if_pos (le_refl c)]
        congr 1
        · rw [notesAt_append_self, List.reverse_append]
          rfl
        · symm
          apply expSlots_append_no_c
          intro u hu huc
          exact List.mem_cons.mpr (Or.inl huc)
      · have hcr : c ∈ rest := by
          rcases List.mem_cons.mp hc with h1 | h1
          · exact absurd (le_of_eq h1) hct
          · exact h1
        rw [expSlots, expSlots, insertSlot, if_neg hct]
        congr 1
        · by_cases hts2 : t ∈ seen
          · rw [if_pos hts2, if_pos hts2]
          · rw [if_neg hts2, if_neg hts2, notesAt_append_ne (by omega)]
        · rw [ih (t :: seen) hrest hcr ?hcond]
          case hcond =>
            intro x hx
            rcases List.mem_cons.mp hx with rfl | hx2
            · exact hct
            · exact hseen x hx2

lemma expSlots_nil_ps : ∀ (ts seen : List ℤ),
    expSlots [] seen ts = ts.map (fun t => (t, [])) := by
  intro ts
  induction ts with
  | nil =>
      intro seen
      rfl
  | cons t rest ih =>
      intro seen
      rw [expSlots, List.map_cons, ih]
      congr 1
      simp [notesAt]

lemma foldl_insertSlot_expSlots (ts0 : List ℤ) (hsort : ts0.Pairwise (fun a b => a ≤ b)) :
    ∀ ps : List (ℤ × MidiMessage), (∀ p ∈ ps, p.1 ∈ ts0) →
      ps.foldl (fun st p => insertSlot p.1 p.2 st) (ts0.map (fun t => (t, []))) =
        expSlots ps [] ts0 := by
  intro ps
  induction ps using List.reverseRecOn with
  | nil =>
      intro hmem
      rw [List.foldl_nil, expSlots_nil_ps]
  | append_singleton qs p ih =>
      intro hmem
      obtain ⟨c, m⟩ := p
      rw [List.foldl_append, List.foldl_cons, List.foldl_nil]
      rw [ih (fun q hq => hmem q (List.mem_append.mpr (Or.inl hq)))]
      exact insertSlot_expSlots c m qs ts0 [] hsort
        (hmem (c, m) (List.mem_append.mpr (Or.inr (List.mem_singleton.mpr rfl))))
        (by simp)

lemma mergeSlots_expSlots (tracks : List Track) :
    mergeSlots tracks =
      expSlots (allNotePairs (sortTracks tracks)) [] (sortZ (collectTs (sortTracks tracks))) := by
  unfold mergeSlots
  dsimp only
  apply foldl_insertSlot_expSlots _ (sortZ_pairwise _)
  intro p hp
  rw [mem_sortZ]
  exact allNotePairs_mem_collectTs _ p.1 p.2 (by simpa using hp)

lemma expSlots_fst (ps : List (ℤ × MidiMessage)) :
    ∀ (ts seen : List ℤ), (expSlots ps seen ts).map Prod.fst = ts := by
  intro ts
  induction ts with
  | nil =>
      intro seen
      rfl
  | cons t rest ih =>
      intro seen
      rw [expSlots, List.map_cons, ih]

lemma expSlots_mem_notes (ps : List (ℤ × MidiMessage)) :
    ∀ (ts seen : List ℤ) (t : ℤ) (ns : List MidiMessage),
      (t, ns) ∈ expSlots ps seen ts → ∀ m ∈ ns, (t, m) ∈ ps := by
  intro ts
  induction ts with
  | nil =>
      intro seen t ns h
      simp [expSlots] at h
  | cons u rest ih =>
      intro seen t ns h m hm
      rw [expSlots] at h
      rcases List.mem_cons.mp h with h1 | h1
      · rw [Prod.mk.injEq] at h1
        obtain ⟨h1a, h1b⟩ := h1
        subst h1a
        by_cases hus : t ∈ seen
        · rw [if_pos hus] at h1b
          subst h1b
          simp at hm
        · rw [if_neg hus] at h1b
          subst h1b
          rw [List.mem_reverse] at hm
          unfold notesAt at hm
          rcases List.mem_map.mp hm with ⟨p, hp, rfl⟩
          have hpt : p.1 = t := by simpa using List.of_mem_filter hp
          have hpp : p ∈ ps := List.mem_of_mem_filter hp
          rw [← hpt]
          simpa using hpp
      · exact ih (u :: seen) t ns h1 m hm

lemma expSlots_seen_empty (ps : List (ℤ × MidiMessage)) :
    ∀ (ts seen : List ℤ) (u : ℤ) (ns : List MidiMessage),
      (u, ns) ∈ expSlots ps seen ts → u ∈ seen → ns = [] := by
  intro ts
  induction ts with
  | nil =>
      intro seen u ns h
      simp [expSlots] at h
  | cons t rest ih =>
      intro seen u ns h hu
      rw [expSlots] at h
      rcases List.mem_cons.mp h with h1 | h1
      · rw [Prod.mk.injEq] at h1
        obtain ⟨h1a, h1b⟩ := h1
        subst h1a
        rw [if_pos hu] at h1b
        exact h1b
      · exact ih (t :: seen) u ns h1 (List.mem_cons.mpr (Or.inr hu))

lemma expSlots_pairwise (ps : List (ℤ × MidiMessage)) :
    ∀ (ts seen : List ℤ),
      (expSlots ps seen ts).Pairwise (fun a b => a.2 = [] ∨ b.2 = [] ∨ a.1 ≠ b.1) := by
  intro ts
  induction ts with
  | nil =>
      intro seen
      exact List.Pairwise.nil
  | cons t rest ih =>
      intro seen
      rw [expSlots, List.pairwise_cons]
      refine ⟨?_, ih (t :: seen)⟩
      intro b hb
      obtain ⟨u, ms⟩ := b
      by_cases hut : u = t
      · subst hut
        exact Or.inr (Or.inl (expSlots_seen_empty ps rest (u :: seen) u ms hb
          (List.mem_cons_self _ _)))
      · exact Or.inr (Or.inr (fun heq => hut heq.symm))

lemma expSlots_notes_shape (ps : List (ℤ × MidiMessage)) :
    ∀ (ts seen : List ℤ) (t : ℤ) (ns : List MidiMessage),
      (t, ns) ∈ expSlots ps seen ts → ns = [] ∨ ns = (notesAt t ps).reverse := by
  intro ts
  induction ts with
  | nil =>
      intro seen t ns h
      simp [expSlots] at h
  | cons u rest ih =>
      intro seen t ns h
      rw [expSlots] at h
      rcases List.mem_cons.mp h with h1 | h1
      · rw [Prod.mk.injEq] at h1
        obtain ⟨h1a, h1b⟩ := h1
        subst h1a
        by_cases hus : t ∈ seen
        · rw [if_pos hus] at h1b
          exact Or.inl h1b
        · rw [if_neg hus] at h1b
          exact Or.inr h1b
      · exact ih (u :: seen) t ns h1

/-- C3.  In a well-formed store, the merged message list is exactly a list of
slots — for each skeleton timestamp its wait message followed by the notes
inserted at that instant — where (i) the slot timestamps are the sorted
collected timestamps, (ii) every note sits in the slot of its own absolute
instant, i.e. after that instant's wait token and never before it, (iii) no
two slots of the same instant both carry notes, so notes sharing an instant
are adjacent in one slot after one shared wait (the further duplicate slots
carry zero deltas), and (iv) a zero-delta wait emits no token at all, so no
duplicate zero-length wait tokens appear between notes of a shared instant. -/
theorem C3_notes_after_waits (tracks : List Track) (hwf : TracksWF tracks) :
    mergeMessages tracks = slotsGm 0 (mergeSlots tracks)
    ∧ (mergeSlots tracks).map Prod.fst = sortZ (collectTs (sortTracks tracks))
    ∧ (∀ t ns, (t, ns) ∈ mergeSlots tracks →
        ∀ m ∈ ns, (t, m) ∈ allNotePairs (sortTracks tracks))
    ∧ (mergeSlots tracks).Pairwise (fun a b => a.2 = [] ∨ b.2 = [] ∨ a.1 ≠ b.1)
    ∧ (∀ inst : ℤ, midiMessageToToken inst (.ElapsedTime 0) = "") := by
  refine ⟨mergeMessages_slots tracks hwf, ?_, ?_, ?_, token_elapsed_zero⟩
  · rw [mergeSlots_expSlots]
    exact expSlots_fst _ _ _
  · intro t ns hmem
    rw [mergeSlots_expSlots] at hmem
    exact expSlots_mem_notes _ _ _ _ _ hmem
  · rw [mergeSlots_expSlots]
    exact expSlots_pairwise _ _ _

/-- Witness for C3 on two tracks sharing the absolute instant 500. -/
theorem C3_notes_after_waits_witness :
    mergeMessages [exTrackB, exTrackC] = slotsGm 0 (mergeSlots [exTrackB, exTrackC])
    ∧ (mergeSlots [exTrackB, exTrackC]).map Prod.fst =
        sortZ (collectTs (sortTracks [exTrackB, exTrackC]))
    ∧ (∀ t ns, (t, ns) ∈ mergeSlots [exTrackB, exTrackC] →
        ∀ m ∈ ns, (t, m) ∈ allNotePairs (sortTracks [exTrackB, exTrackC]))
    ∧ (mergeSlots [exTrackB, exTrackC]).Pairwise
        (fun a b => a.2 = [] ∨ b.2 = [] ∨ a.1 ≠ b.1)
    ∧ (∀ inst : ℤ, midiMessageToToken inst (.ElapsedTime 0) = "") :=
  C3_notes_after_waits [exTrackB, exTrackC] (by decide)

/-- C2 counterexample: in a track whose raw content plays note 60 and then
note 64 at the same instant (no elapsed time between them), the merged
output lists note 64 before note 60 — the note processed first comes out
last, refuting "the one processed first appears first in the merged
output". -/
theorem C2_counterexample :
    exTrackChord.rawContent = [.NoteOn 60 0 0, .NoteOn 64 0 0] ∧
    mergeMessages [exTrackChord] =
      [.ElapsedTime 0, .NoteOn 64 0 0, .NoteOn 60 0 0] := by
  decide

/-- C2 (amended).  The zero-duration placeholder keeps the `globalMessages`
and `sortedTimestamp` arrays aligned, and insertions for the same instant
stay adjacent in that instant's slot; but each insertion lands directly
after the instant's wait entry, in front of earlier insertions, so the notes
of an instant appear in reverse processing order: every non-empty slot holds
exactly the reverse of its instant's notes in processing order. -/
theorem C2_reverse_order_amended (tracks : List Track) (hwf : TracksWF tracks) :
    mergeMessages tracks = slotsGm 0 (mergeSlots tracks)
    ∧ mergeSlots tracks =
        expSlots (allNotePairs (sortTracks tracks)) [] (sortZ (collectTs (sortTracks tracks)))
    ∧ ∀ t ns, (t, ns) ∈ mergeSlots tracks →
        ns = [] ∨ ns = (notesAt t (allNotePairs (sortTracks tracks))).reverse := by
  refine ⟨mergeMessages_slots tracks hwf, mergeSlots_expSlots tracks, ?_⟩
  intro t ns hmem
  rw [mergeSlots_expSlots] at hmem
  exact expSlots_notes_shape _ _ _ _ _ hmem

/-- Witness for C2 (amended) on the chord example. -/
theorem C2_reverse_order_witness :
    mergeMessages [exTrackChord] = slotsGm 0 (mergeSlots [exTrackChord])
    ∧ mergeSlots [exTrackChord] =
        expSlots (allNotePairs (sortTracks [exTrackChord])) []
          (sortZ (collectTs (sortTracks [exTrackChord])))
    ∧ ∀ t ns, (t, ns) ∈ mergeSlots [exTrackChord] →
        ns = [] ∨ ns = (notesAt t (allNotePairs (sortTracks [exTrackChord]))).reverse :=
  C2_reverse_order_amended [exTrackChord] (by decide)
